import Mathlib

/-!
Shallow embedding of the tiny-calc range-aggregation engine
(`src/unnamed/part_000`: the range/aggregation module together with the
`@tiny-calc/nano` type declarations).  Rows, columns and dimensions are
JavaScript numbers used as integers, embedded as `Int`; numeric cell
values are embedded as `Int` (every number the claims exercise is an
integer; only the average finisher divides, noted there).  The mutable evaluation-context cache is
threaded explicitly: functions take the cache and return the updated one.
-/

/-- The seven aggregation operations (`FunctionTask` in the source). -/
inductive FunctionTask
  | sum | product | count | average | max | min | concat
deriving DecidableEq, Repr

/-- The string value of each `FunctionTask` literal. -/
def taskName : FunctionTask → String
  | .sum => "sum"
  | .product => "product"
  | .count => "count"
  | .average => "average"
  | .max => "max"
  | .min => "min"
  | .concat => "concat"

/-- The upper-case alias of each aggregation name used in the `aggregations` record. -/
def upperName : FunctionTask → String
  | .sum => "SUM"
  | .product => "PRODUCT"
  | .count => "COUNT"
  | .average => "AVERAGE"
  | .max => "MAX"
  | .min => "MIN"
  | .concat => "CONCAT"

/-- A `Range`: an immutable rectangular view of the grid (anchor + dimensions).
The capability table (`typeMap`) is the fixed `rangeTypeMap`, embedded below as
the functions `rangeRead` / `rangeDereference`, so objects of this type are
fully described by their geometry. -/
structure Range where
  tlRow : Int
  tlCol : Int
  height : Int
  width : Int
deriving DecidableEq, Repr

/-- Modelled from the spec: the error values exported by the missing `./core`
module (`errors.div0`, `errors.unknownField`): error objects implementing the
Error capability, distinguished by kind. -/
inductive ErrKind
  | div0
  | unknownField
deriving DecidableEq, Repr

/-- A `CalcValue<RangeContext>`: a primitive (boolean, number, string), a
function, or a `CalcObj` — here either a `Range` (whose capability table has
Readable and Reference) or an error object (no Readable capability).
Function values are opaque to the aggregation engine and carry only a tag. -/
inductive CalcValue
  | bool (b : Bool)
  | num (q : Int)
  | str (s : String)
  | range (r : Range)
  | err (e : ErrKind)
  | fn (tag : Nat)
deriving DecidableEq, Repr

/-- The accumulator state of a runner (`runner[0]` in the source).  Each
aggregation uses one constructor: `num` for sum/product/count, `pair`
(running total, running count) for average, `onum` (`number | undefined`)
for max/min, and `str` for concat. -/
inductive Accum
  | num (q : Int)
  | pair (total count : Int)
  | onum (o : Option Int)
  | str (s : String)
deriving DecidableEq, Repr

/-- A `FunctionFiber`: the saved state of a suspended range fold — the
operation (`state`), the target range, the cursor of the next unread cell,
and the runner's accumulator. -/
structure FunctionFiber where
  state : FunctionTask
  range : Range
  row : Int
  column : Int
  runner : Accum
deriving DecidableEq, Repr

/-- The fiber carried by a `PendingTask`: either an opaque formula-cell fiber
(owned by the host; only its identity matters here) or a `FunctionFiber`. -/
inductive PendingFib
  | cell (tag : Nat)
  | func (f : FunctionFiber)
deriving DecidableEq, Repr

/-- The result of a read: a resolved `CalcValue` or a `PendingTask` carrying
its fiber. -/
inductive ReadOut
  | val (v : CalcValue)
  | pending (p : PendingFib)
deriving DecidableEq, Repr

/-- Modelled from the spec: `isPendingTask` from the missing `./core` module —
tests whether a read result is a Pending marker (`kind === "Pending"`). -/
def isPendingTask : ReadOut → Bool
  | .pending _ => true
  | .val _ => false

/-- The evaluation context's cache: a map from cache-key strings to cached
results (final values or pending tasks).  Writes shadow earlier entries. -/
def Cache := List (String × ReadOut)

instance : DecidableEq Cache := fun a b => List.hasDecEq a b

/-- Lookup in the cache (`context.cache[key]`). -/
def cacheLookup : Cache → String → Option ReadOut
  | [], _ => none
  | (k, v) :: rest, key => if k = key then some v else cacheLookup rest key

/-- Assignment to the cache (`context.cache[key] = value`). -/
def cacheWrite (cache : Cache) (key : String) (v : ReadOut) : Cache :=
  (key, v) :: cache

/-- The `RangeContext` minus its cache (which is threaded explicitly):
an optional origin point and the grid-read callback. -/
structure RangeContext where
  origin : Option (Int × Int)
  read : Int → Int → ReadOut

/-- `makeCacheKey`: the cache key of one (property, range-geometry) pair. -/
def makeCacheKey (range : Range) (prop : String) : String :=
  prop ++ ";" ++ toString range.tlRow ++ ";" ++ toString range.tlCol ++ ";"
    ++ toString range.height ++ ";" ++ toString range.width

/-- The runner step functions (`createSum`, `createProduct`, `createCount`,
`createAverage`, `createMax`, `createMin`, `createConcat`): update the
accumulator from one scanned cell value, ignoring values of the wrong
primitive type.  Fibers built by `makePendingFunction` always pair a task
with its own accumulator constructor; a mismatched accumulator is left
unchanged. -/
def runnerStep : FunctionTask → Accum → CalcValue → Accum
  | .sum, .num a, .num n => .num (a + n)
  | .product, .num a, .num n => .num (a * n)
  | .count, .num a, .num _ => .num (a + 1)
  | .average, .pair t c, .num n => .pair (t + n) (c + 1)
  | .max, .onum o, .num n =>
    match o with
    | none => .onum (some n)
    | some m => if n > m then .onum (some n) else .onum (some m)
  | .min, .onum o, .num n =>
    match o with
    | none => .onum (some n)
    | some m => if n < m then .onum (some n) else .onum (some m)
  | .concat, .str a, .str s => .str (a ++ s)
  | _, acc, _ => acc

/-- `fromUndefined`: the max/min finisher maps the "none seen" accumulator
to 0. -/
def fromUndefined : Option Int → Int
  | none => 0
  | some n => n

/-- `finishAverage`: divide the running total by the count, yielding the
division-by-zero error object when the count is 0.  (The source divides
JavaScript numbers; with numbers embedded as `Int` the nonzero case uses
integer division — no claim depends on a fractional average.) -/
def finishAverage (total count : Int) : CalcValue :=
  if count = 0 then .err .div0 else .num (total / count)

/-- The runner finishers: `id` for sum/product/count/concat,
`finishAverage` for average, `fromUndefined` for max/min.  (The catch-all
for a mismatched accumulator constructor is unreachable for fibers built
by `makePendingFunction`.) -/
def runnerFinish : FunctionTask → Accum → CalcValue
  | .sum, .num a => .num a
  | .product, .num a => .num a
  | .count, .num a => .num a
  | .average, .pair t c => finishAverage t c
  | .max, .onum o => .num (fromUndefined o)
  | .min, .onum o => .num (fromUndefined o)
  | .concat, .str s => .str s
  | _, _ => .err .unknownField

/-- The initial accumulator passed to each runner at its call site
(`createSum(0)`, `createProduct(1)`, `createCount(0)`, `createAverage([0,0])`,
`createMax(undefined)`, `createMin(undefined)`, `createConcat("")`). -/
def initAccum : FunctionTask → Accum
  | .sum => .num 0
  | .product => .num 1
  | .count => .num 0
  | .average => .pair 0 0
  | .max => .onum none
  | .min => .onum none
  | .concat => .str ""

/-- Modelled from the spec: `makePendingFunction` from the missing `./core`
module — constructs a fresh `FunctionFiber` for an aggregation over a range
with the given cursor and runner state.  (The source fiber also carries the
context; here the context is passed to `runFunc` directly.) -/
def makePendingFunction (state : FunctionTask) (range : Range)
    (row column : Int) (runner : Accum) : FunctionFiber :=
  { state := state, range := range, row := row, column := column, runner := runner }

/-- The first loop of `runFunc` (`for (let j = column; j < endC; j++)`),
counted down by the number of remaining columns: read each cell of one row;
stop at the first Pending read, reporting its column. -/
def scanRowAux (ctx : RangeContext) (t : FunctionTask) (row : Int) :
    Int → Nat → Accum → Accum × Option Int
  | _, 0, acc => (acc, none)
  | col, n + 1, acc =>
    match ctx.read row col with
    | .pending _ => (acc, some col)
    | .val v => scanRowAux ctx t row (col + 1) n (runnerStep t acc v)

/-- The second loop of `runFunc` (`for (let i = row + 1; i < endR; i++)`),
counted down by the number of remaining rows: scan each full row from
`startCol`; stop at the first Pending read, reporting its cell. -/
def scanRowsAux (ctx : RangeContext) (t : FunctionTask) (startCol endC : Int) :
    Int → Nat → Accum → Accum × Option (Int × Int)
  | _, 0, acc => (acc, none)
  | i, n + 1, acc =>
    match scanRowAux ctx t i startCol ((endC - startCol).toNat) acc with
    | (acc2, some j) => (acc2, some (i, j))
    | (acc2, none) => scanRowsAux ctx t startCol endC (i + 1) n acc2

/-- `runFunc(fiber)`: resume a function fiber.  Finish the partially-scanned
row first, then scan the remaining full rows.  On a Pending read, save the
cursor into the fiber and store/return `{kind: "Pending", fiber}` under the
operation+range cache key; on completion, store/return the finisher's
result under the same key. -/
def runFunc (ctx : RangeContext) (cache : Cache) (fiber : FunctionFiber) :
    ReadOut × Cache :=
  let startCol := fiber.range.tlCol
  let endR := fiber.range.tlRow + fiber.range.height
  let endC := fiber.range.tlCol + fiber.range.width
  let key := makeCacheKey fiber.range (taskName fiber.state)
  match scanRowAux ctx fiber.state fiber.row fiber.column
      ((endC - fiber.column).toNat) fiber.runner with
  | (acc, some j) =>
    let f := { fiber with column := j, runner := acc }
    (.pending (.func f), cacheWrite cache key (.pending (.func f)))
  | (acc, none) =>
    match scanRowsAux ctx fiber.state startCol endC (fiber.row + 1)
        ((endR - (fiber.row + 1)).toNat) acc with
    | (acc2, some ij) =>
      let f := { fiber with row := ij.1, column := ij.2, runner := acc2 }
      (.pending (.func f), cacheWrite cache key (.pending (.func f)))
    | (acc2, none) =>
      let v := runnerFinish fiber.state acc2
      (.val v, cacheWrite cache key (.val v))

/-- The `aggregations` record's own keys: the seven operation names and
their upper-case aliases (exactly those fourteen strings) map to their
aggregation.  (A JavaScript lookup `aggregations[message]` also finds the
members the object literal inherits from `Object.prototype`; that part of
the lookup is modelled by `objectProtoMember` and `rangeReadJS` below.) -/
def aggrTask : String → Option FunctionTask
  | "sum" => some .sum
  | "product" => some .product
  | "count" => some .count
  | "average" => some .average
  | "max" => some .max
  | "min" => some .min
  | "concat" => some .concat
  | "SUM" => some .sum
  | "PRODUCT" => some .product
  | "COUNT" => some .count
  | "AVERAGE" => some .average
  | "MAX" => some .max
  | "MIN" => some .min
  | "CONCAT" => some .concat
  | _ => none

/-- `rangeTypeMap[TypeName.Readable].read`: route a property read on a Range.
A known aggregation name consults the cache under `makeCacheKey(receiver,
message)` and otherwise runs the aggregation fresh from the top-left cell;
`row`/`ROW` and `column`/`COLUMN` return 1-based anchor coordinates; any
other name dereferences the anchor cell, propagates a Pending anchor
untouched, delegates to an anchor object with a Readable capability (here:
a Range), and otherwise returns the unknown-field error.  Delegation in the
source is plain recursion; `fuel` bounds that recursion depth and `none`
means the bound was exhausted.  This function models the guard
`aggregations[message] !== undefined` by the record's own keys only;
`rangeReadJS` below additionally models the members inherited from
`Object.prototype` that satisfy the guard in JavaScript, and agrees with
this function on every non-inherited name (`rangeReadJS_agrees`). -/
def rangeRead (fuel : Nat) (ctx : RangeContext) (cache : Cache)
    (receiver : Range) (message : String) : Option (ReadOut × Cache) :=
  match aggrTask message with
  | some t =>
    let key := makeCacheKey receiver message
    match cacheLookup cache key with
    | some value => some (value, cache)
    | none =>
      some (runFunc ctx cache
        (makePendingFunction t receiver receiver.tlRow receiver.tlCol (initAccum t)))
  | none =>
    if message = "row" ∨ message = "ROW" then
      some (.val (.num (receiver.tlRow + 1)), cache)
    else if message = "column" ∨ message = "COLUMN" then
      some (.val (.num (receiver.tlCol + 1)), cache)
    else
      match ctx.read receiver.tlRow receiver.tlCol with
      | .pending p => some (.pending p, cache)
      | .val (.range r2) =>
        match fuel with
        | 0 => none
        | fuel' + 1 => rangeRead fuel' ctx cache r2 message
      | .val _ => some (.val (.err .unknownField), cache)

/-- `rangeTypeMap[TypeName.Reference].dereference`: read the anchor cell. -/
def rangeDereference (ctx : RangeContext) (value : Range) : ReadOut :=
  ctx.read value.tlRow value.tlCol

/-- The outcome of the full-lookup read `rangeReadJS`: a normal return of a
value and the updated cache, exhaustion of the delegation fuel bound (a
model artifact, as in `rangeRead`), or a thrown TypeError. -/
inductive JsOutcome
  | ret (out : ReadOut) (cache : Cache)
  | fuelOut
  | typeError
deriving DecidableEq

/-- The property names the `aggregations` object literal inherits from
`Object.prototype` (ECMA-262 §20.2.4 together with the Annex B legacy
accessor-definition methods present in Node and browsers).  For these
names the source's guard `aggregations[message] !== undefined` is
satisfied even though they are not keys of the record. -/
def objectProtoMember : String → Bool
  | "constructor" | "hasOwnProperty" | "isPrototypeOf" | "propertyIsEnumerable"
  | "toLocaleString" | "toString" | "valueOf" | "__proto__"
  | "__defineGetter__" | "__defineSetter__" | "__lookupGetter__"
  | "__lookupSetter__" => true
  | _ => false

/-- The result of the source's `return fn(receiver, context)` when `fn` is a
member inherited from `Object.prototype`.  The module is strict-mode code
(a TypeScript/ES module), so the extracted function runs with `this`
undefined: `toString` returns the string "[object Undefined]";
`constructor` is the `Object` constructor, which called as a function
returns its object argument `receiver`; every other inherited member throws
a TypeError (`valueOf`, `hasOwnProperty`, `isPrototypeOf`,
`propertyIsEnumerable`, `toLocaleString` and the Annex B methods coerce
their undefined `this`, and `__proto__` reads as the non-callable
`Object.prototype`). -/
def protoCall (message : String) (receiver : Range) (cache : Cache) : JsOutcome :=
  match message with
  | "toString" => .ret (.val (.str "[object Undefined]")) cache
  | "constructor" => .ret (.val (.range receiver)) cache
  | _ => .typeError

/-- `rangeTypeMap[TypeName.Readable].read` with the full JavaScript property
lookup: the guard `aggregations[message] !== undefined` holds for the
fourteen record keys and for the names inherited from `Object.prototype`.
Every guarded name consults the cache first; on a miss, a record key runs
its aggregation while an inherited member is invoked in its place
(`protoCall`).  All other names take the switch and default branches
exactly as in `rangeRead`. -/
def rangeReadJS (fuel : Nat) (ctx : RangeContext) (cache : Cache)
    (receiver : Range) (message : String) : JsOutcome :=
  if (aggrTask message).isSome || objectProtoMember message then
    let key := makeCacheKey receiver message
    match cacheLookup cache key with
    | some value => .ret value cache
    | none =>
      match aggrTask message with
      | some t =>
        let rc := runFunc ctx cache
          (makePendingFunction t receiver receiver.tlRow receiver.tlCol (initAccum t))
        .ret rc.1 rc.2
      | none => protoCall message receiver cache
  else if message = "row" ∨ message = "ROW" then
    .ret (.val (.num (receiver.tlRow + 1))) cache
  else if message = "column" ∨ message = "COLUMN" then
    .ret (.val (.num (receiver.tlCol + 1))) cache
  else
    match ctx.read receiver.tlRow receiver.tlCol with
    | .pending p => .ret (.pending p) cache
    | .val (.range r2) =>
      match fuel with
      | 0 => .fuelOut
      | fuel' + 1 => rangeReadJS fuel' ctx cache r2 message
    | .val _ => .ret (.val (.err .unknownField)) cache

/-- A `Reference`: two corner points, the second one optional coordinatewise. -/
structure Reference where
  row1 : Int
  col1 : Int
  row2 : Option Int
  col2 : Option Int
deriving DecidableEq, Repr

/-- `fromReference`: build a Range from a Reference.  With both second-corner
coordinates present, normalize so the top-left anchor is the coordinatewise
minimum and the dimensions span both corners; otherwise a 1×1 range at the
first corner. -/
def fromReference (reference : Reference) : Range :=
  match reference.row2, reference.col2 with
  | some row2, some col2 =>
    { tlRow := if reference.row1 < row2 then reference.row1 else row2
      tlCol := if reference.col1 < col2 then reference.col1 else col2
      height := |reference.row1 - row2| + 1
      width := |reference.col1 - col2| + 1 }
  | _, _ =>
    { tlRow := reference.row1
      tlCol := reference.col1
      height := 1
      width := 1 }

/-!
Specification-side reference definitions, used to state what the scan of
`runFunc` must visit: the remaining cells of the range from a cursor, in
row-major order, and a one-cell-at-a-time fold over an explicit cell list.
-/

/-- The cells `(row, col), (row, col+1), …` of one row up to (excluding)
column `endCol`. -/
def rowCells (row col endCol : Int) : List (Int × Int) :=
  (List.range (endCol - col).toNat).map (fun (k : Nat) => (row, col + (k : Int)))

/-- The cells of `range` that remain to be visited from cursor `(row, col)`,
in row-major order: the rest of the cursor's row, then every full row below
it. -/
def cellsFrom (range : Range) (row col : Int) : List (Int × Int) :=
  rowCells row col (range.tlCol + range.width) ++
    ((List.range ((range.tlRow + range.height) - (row + 1)).toNat).map
        (fun (k : Nat) => row + 1 + (k : Int))).flatMap
      (fun i => rowCells i range.tlCol (range.tlCol + range.width))

/-- Reference fold over an explicit list of cells: read each cell in order,
feeding resolved values to the runner step; stop at the first Pending read,
reporting that cell. -/
def foldCells (ctx : RangeContext) (t : FunctionTask) :
    List (Int × Int) → Accum → Accum × Option (Int × Int)
  | [], acc => (acc, none)
  | c :: cs, acc =>
    match ctx.read c.1 c.2 with
    | .pending _ => (acc, some c)
    | .val v => foldCells ctx t cs (runnerStep t acc v)

/-- The numeric values among the reads of a list of cells, in order. -/
def numsOf (ctx : RangeContext) (cs : List (Int × Int)) : List Int :=
  cs.filterMap (fun c =>
    match ctx.read c.1 c.2 with
    | .val (.num q) => some q
    | _ => none)

/-- The numeric values within a list of scanned cell values. -/
def numVals (vs : List CalcValue) : List Int :=
  vs.filterMap (fun v => match v with | .num q => some q | _ => none)

/-- The string values within a list of scanned cell values. -/
def strVals (vs : List CalcValue) : List String :=
  vs.filterMap (fun v => match v with | .str s => some s | _ => none)

/-- Whether a scanned value has the primitive type a runner's step function
updates on: a string for `concat`, a number for every other task. -/
def expectsVal : FunctionTask → CalcValue → Bool
  | .concat, .str _ => true
  | .concat, _ => false
  | _, .num _ => true
  | _, _ => false

/-- Running maximum in the style of `createMax`: fold the step that replaces
a "none seen" accumulator or a smaller current maximum. -/
def maxAcc (o : Option Int) (l : List Int) : Option Int :=
  l.foldl (fun o n =>
    match o with
    | none => some n
    | some m => if n > m then some n else some m) o

/-- Running minimum in the style of `createMin`. -/
def minAcc (o : Option Int) (l : List Int) : Option Int :=
  l.foldl (fun o n =>
    match o with
    | none => some n
    | some m => if n < m then some n else some m) o

/-!
Concrete fixtures: a 3×1 range anchored at the origin (the spec's end-to-end
example `A1:A3`), single-column grids over it in several states of
resolution, and the fibers and caches the engine produces on them.
-/

/-- The 3-row, 1-column range at the origin (`A1:A3`). -/
def exRange : Range := ⟨0, 0, 3, 1⟩

/-- A single-column grid giving the three cells of `exRange`; all other
cells read as an (irrelevant) formula-cell Pending. -/
def col3Ctx (a b c : ReadOut) : RangeContext :=
  { origin := none
    read := fun i j =>
      if i = 0 ∧ j = 0 then a
      else if i = 1 ∧ j = 0 then b
      else if i = 2 ∧ j = 0 then c
      else .pending (.cell 99) }

/-- Grid state: `[1, pending, 3]` — the second cell is still being computed. -/
def ctxA : RangeContext := col3Ctx (.val (.num 1)) (.pending (.cell 0)) (.val (.num 3))

/-- Grid state: `[1, 2, pending]` — the third cell is still being computed. -/
def ctxB : RangeContext := col3Ctx (.val (.num 1)) (.val (.num 2)) (.pending (.cell 1))

/-- Grid state: `[1, 2, 3]` — fully resolved. -/
def ctxR : RangeContext := col3Ctx (.val (.num 1)) (.val (.num 2)) (.val (.num 3))

/-- The sum fiber suspended on the second cell of `ctxA` (accumulator 1). -/
def fibA : FunctionFiber := ⟨.sum, exRange, 1, 0, .num 1⟩

/-- The sum fiber suspended on the third cell of `ctxB` (accumulator 3). -/
def fibB : FunctionFiber := ⟨.sum, exRange, 2, 0, .num 3⟩

/-- The cache after a first `sum` read over `ctxA` suspends on the second cell. -/
def cacheA : Cache := [("sum;0;0;3;1", .pending (.func fibA))]

/-- The cache after a first `sum` read over `ctxB` suspends on the third cell. -/
def cacheB : Cache := [("sum;0;0;3;1", .pending (.func fibB))]

/-- A cache holding the finished sum 6 of `exRange` under its cache key. -/
def cacheF : Cache := [("sum;0;0;3;1", .val (.num 6))]

/-- A grid whose every cell reads as the same value. -/
def constCtx (v : ReadOut) : RangeContext := { origin := none, read := fun _ _ => v }

/-- A grid of strings only: no numeric cells anywhere. -/
def ctxS : RangeContext := constCtx (.val (.str "x"))

/-- A 2×2 range at the origin. -/
def range2 : Range := ⟨0, 0, 2, 2⟩

/-!
Helper lemmas: the two loops of `runFunc` agree with the reference fold
`foldCells` over the corresponding explicit cell lists.
-/

theorem foldCells_append (ctx : RangeContext) (t : FunctionTask) :
    ∀ (l1 l2 : List (Int × Int)) (acc : Accum),
      foldCells ctx t (l1 ++ l2) acc =
        match foldCells ctx t l1 acc with
        | (a, some c) => (a, some c)
        | (a, none) => foldCells ctx t l2 a
  | [], _, _ => rfl
  | c :: cs, l2, acc => by
    simp only [List.cons_append, foldCells]
    cases ctx.read c.1 c.2 with
    | pending p => rfl
    | val v => exact foldCells_append ctx t cs l2 (runnerStep t acc v)

theorem scanRowAux_eq (ctx : RangeContext) (t : FunctionTask) (row : Int) :
    ∀ (n : Nat) (col : Int) (acc : Accum),
      foldCells ctx t ((List.range n).map (fun (k : Nat) => (row, col + (k : Int)))) acc =
        match scanRowAux ctx t row col n acc with
        | (a, none) => (a, none)
        | (a, some j) => (a, some (row, j))
  | 0, _, _ => rfl
  | n + 1, col, acc => by
    rw [List.range_succ_eq_map]
    have hmap : (List.map Nat.succ (List.range n)).map
        (fun (k : Nat) => (row, col + (k : Int))) =
        (List.range n).map (fun (k : Nat) => (row, (col + 1) + (k : Int))) := by
      rw [List.map_map]
      refine List.map_congr_left (fun k _ => ?_)
      simp only [Function.comp_apply, Nat.succ_eq_add_one, Prod.mk.injEq, true_and]
      push_cast
      omega
    simp only [List.map_cons, hmap, foldCells, scanRowAux, Nat.cast_zero, Int.add_zero]
    cases hv : ctx.read row col with
    | pending p => rfl
    | val v => exact scanRowAux_eq ctx t row n (col + 1) (runnerStep t acc v)

theorem foldCells_rowCells (ctx : RangeContext) (t : FunctionTask)
    (row col endCol : Int) (acc : Accum) :
    foldCells ctx t (rowCells row col endCol) acc =
      match scanRowAux ctx t row col ((endCol - col).toNat) acc with
      | (a, none) => (a, none)
      | (a, some j) => (a, some (row, j)) :=
  scanRowAux_eq ctx t row ((endCol - col).toNat) col acc

theorem scanRowsAux_eq (ctx : RangeContext) (t : FunctionTask) (startCol endC : Int) :
    ∀ (n : Nat) (i : Int) (acc : Accum),
      foldCells ctx t
          (((List.range n).map (fun (k : Nat) => i + (k : Int))).flatMap
            (fun r => rowCells r startCol endC)) acc =
        scanRowsAux ctx t startCol endC i n acc
  | 0, _, _ => rfl
  | n + 1, i, acc => by
    rw [List.range_succ_eq_map]
    have hmap : (List.map Nat.succ (List.range n)).map (fun (k : Nat) => i + (k : Int)) =
        (List.range n).map (fun (k : Nat) => (i + 1) + (k : Int)) := by
      rw [List.map_map]
      refine List.map_congr_left (fun k _ => ?_)
      simp only [Function.comp_apply, Nat.succ_eq_add_one]
      push_cast
      omega
    simp only [List.map_cons, hmap, List.flatMap_cons, Nat.cast_zero, Int.add_zero]
    rw [foldCells_append, foldCells_rowCells]
    cases hs : scanRowAux ctx t i startCol ((endC - startCol).toNat) acc with
    | mk a o =>
      cases o with
      | some j => simp only [scanRowsAux, hs]
      | none =>
        simp only [scanRowsAux, hs]
        exact scanRowsAux_eq ctx t startCol endC n (i + 1) a

theorem runFunc_eq_foldCells (ctx : RangeContext) (cache : Cache) (fiber : FunctionFiber) :
    runFunc ctx cache fiber =
      match foldCells ctx fiber.state (cellsFrom fiber.range fiber.row fiber.column)
          fiber.runner with
      | (acc, some c) =>
        (.pending (.func { fiber with row := c.1, column := c.2, runner := acc }),
         cacheWrite cache (makeCacheKey fiber.range (taskName fiber.state))
           (.pending (.func { fiber with row := c.1, column := c.2, runner := acc })))
      | (acc, none) =>
        (.val (runnerFinish fiber.state acc),
         cacheWrite cache (makeCacheKey fiber.range (taskName fiber.state))
           (.val (runnerFinish fiber.state acc))) := by
  simp only [runFunc, cellsFrom]
  rw [foldCells_append, foldCells_rowCells]
  cases h1 : scanRowAux ctx fiber.state fiber.row fiber.column
      ((fiber.range.tlCol + fiber.range.width - fiber.column).toNat) fiber.runner with
  | mk a o =>
    cases o with
    | some j => rfl
    | none =>
      dsimp only
      rw [scanRowsAux_eq]

/-!
Helper lemmas: `cellsFrom` lists exactly the remaining cells of the range,
in row-major order, each exactly once.
-/

theorem mem_rowCells (row col endCol i j : Int) :
    (i, j) ∈ rowCells row col endCol ↔ i = row ∧ col ≤ j ∧ j < endCol := by
  simp only [rowCells, List.mem_map, List.mem_range, Prod.mk.injEq]
  constructor
  · rintro ⟨k, hk, rfl, rfl⟩
    omega
  · rintro ⟨rfl, h1, h2⟩
    exact ⟨(j - col).toNat, by omega, rfl, by omega⟩

theorem mem_cellsFrom (r : Range) (row col i j : Int) :
    (i, j) ∈ cellsFrom r row col ↔
      ((i = row ∧ col ≤ j ∧ j < r.tlCol + r.width) ∨
        (row < i ∧ i < r.tlRow + r.height ∧ r.tlCol ≤ j ∧ j < r.tlCol + r.width)) := by
  simp only [cellsFrom, List.mem_append, List.mem_flatMap, List.mem_map, List.mem_range,
    mem_rowCells]
  constructor
  · rintro (h | ⟨x, ⟨k, hk, rfl⟩, rfl, h2, h3⟩)
    · exact Or.inl h
    · right
      omega
  · rintro (h | ⟨h1, h2, h3, h4⟩)
    · exact Or.inl h
    · right
      exact ⟨i, ⟨(i - (row + 1)).toNat, by omega, by omega⟩, rfl, h3, h4⟩

theorem nodup_rowCells (row col endCol : Int) : (rowCells row col endCol).Nodup := by
  refine List.Nodup.map ?_ (List.nodup_range _)
  intro a b h
  simp only [Prod.mk.injEq, true_and] at h
  omega

theorem nodup_cellsFrom (r : Range) (row col : Int) : (cellsFrom r row col).Nodup := by
  refine List.Nodup.append (nodup_rowCells _ _ _) ?_ ?_
  · rw [List.nodup_flatMap]
    refine ⟨fun x _ => nodup_rowCells _ _ _, ?_⟩
    rw [List.pairwise_map]
    refine List.Pairwise.imp ?_ (List.pairwise_lt_range _)
    intro a b hab p hp hq
    obtain ⟨i, j⟩ := p
    rw [mem_rowCells] at hp hq
    omega
  · intro p hp hq
    obtain ⟨i, j⟩ := p
    rw [mem_rowCells] at hp
    rw [List.mem_flatMap] at hq
    obtain ⟨x, hx, hq⟩ := hq
    rw [mem_rowCells] at hq
    simp only [List.mem_map, List.mem_range] at hx
    obtain ⟨k, hk, rfl⟩ := hx
    omega

/-!
Helper lemmas about the cache and the shape of a suspended `runFunc` result.
-/

theorem cacheLookup_write (c : Cache) (k : String) (v : ReadOut) :
    cacheLookup (cacheWrite c k v) k = some v := by
  simp [cacheWrite, cacheLookup]

theorem runFunc_pending_cache (ctx : RangeContext) (cache : Cache)
    (fiber f : FunctionFiber) (cache1 : Cache)
    (h : runFunc ctx cache fiber = (.pending (.func f), cache1)) :
    cache1 = cacheWrite cache (makeCacheKey fiber.range (taskName fiber.state))
      (.pending (.func f)) := by
  rw [runFunc_eq_foldCells] at h
  cases hf : foldCells ctx fiber.state (cellsFrom fiber.range fiber.row fiber.column)
      fiber.runner with
  | mk a o =>
    rw [hf] at h
    cases o with
    | some c =>
      simp only [Prod.mk.injEq, ReadOut.pending.injEq, PendingFib.func.injEq] at h
      rw [← h.1, ← h.2]
    | none => simp at h

/-- C2 (confirmed): `runFunc` resumed at a saved cursor finishes the
partially-scanned row first and then scans full rows in row-major order,
visiting each remaining cell exactly once (the visited list `cellsFrom` has
no duplicates and contains exactly the cells at/after the cursor); a Pending
read saves the current cell into the fiber and stores/returns the pending
task under the operation+range key without scanning further, and a completed
scan stores and returns the finisher's result.  Concretely, over the 3×1
range `[1, 2, Pending]` a first `sum` read suspends with the cursor on the
third cell, and resuming after that cell resolves to 3 returns 6, cached
under the key "sum;0;0;3;1". -/
theorem runFunc_resume_correct :
    (∀ (r : Range) (row col : Int), (cellsFrom r row col).Nodup) ∧
    (∀ (r : Range) (row col i j : Int),
      (i, j) ∈ cellsFrom r row col ↔
        ((i = row ∧ col ≤ j ∧ j < r.tlCol + r.width) ∨
          (row < i ∧ i < r.tlRow + r.height ∧ r.tlCol ≤ j ∧ j < r.tlCol + r.width))) ∧
    (∀ (ctx : RangeContext) (cache : Cache) (fiber : FunctionFiber),
      runFunc ctx cache fiber =
        match foldCells ctx fiber.state (cellsFrom fiber.range fiber.row fiber.column)
            fiber.runner with
        | (acc, some c) =>
          (.pending (.func { fiber with row := c.1, column := c.2, runner := acc }),
            cacheWrite cache (makeCacheKey fiber.range (taskName fiber.state))
              (.pending (.func { fiber with row := c.1, column := c.2, runner := acc })))
        | (acc, none) =>
          (.val (runnerFinish fiber.state acc),
            cacheWrite cache (makeCacheKey fiber.range (taskName fiber.state))
              (.val (runnerFinish fiber.state acc)))) ∧
    (rangeRead 1 ctxB [] exRange "sum" = some (.pending (.func fibB), cacheB) ∧
      fibB.row = 2 ∧ fibB.column = 0 ∧
      runFunc ctxR cacheB fibB =
        (.val (.num 6), cacheWrite cacheB "sum;0;0;3;1" (.val (.num 6))) ∧
      cacheLookup (cacheWrite cacheB "sum;0;0;3;1" (.val (.num 6))) "sum;0;0;3;1" =
        some (.val (.num 6)) ∧
      makeCacheKey exRange "sum" = "sum;0;0;3;1") := by
  refine ⟨nodup_cellsFrom, mem_cellsFrom, runFunc_eq_foldCells, ?_, ?_, ?_, ?_, ?_, ?_⟩ <;>
    decide

/-- C1 (corrected): the at-most-one-fold-in-flight guarantee holds for
requests made with the lowercase operation name: once a request for that
property has returned Pending, any later request with the same property on
a range of the same geometry returns the cached fiber unchanged and does
not touch the cache or the grid.  (Requests via the upper-case alias break
the guarantee — see the counterexample — because the fiber is stored under
the lowercase-name key but looked up under the alias.) -/
theorem fold_in_flight_lowercase_reuse (fuel fuel2 : Nat) (ctx ctx2 : RangeContext)
    (cache cache1 : Cache) (r : Range) (t : FunctionTask) (f : FunctionFiber)
    (h1 : rangeRead fuel ctx cache r (taskName t) = some (.pending (.func f), cache1)) :
    rangeRead fuel2 ctx2 cache1 r (taskName t) = some (.pending (.func f), cache1) := by
  have ha : aggrTask (taskName t) = some t := by cases t <;> rfl
  have hkey : cacheLookup cache1 (makeCacheKey r (taskName t)) =
      some (.pending (.func f)) := by
    simp only [rangeRead, ha] at h1
    cases hcl : cacheLookup cache (makeCacheKey r (taskName t)) with
    | some value =>
      rw [hcl] at h1
      simp only [Option.some.injEq, Prod.mk.injEq] at h1
      rw [← h1.2, hcl, h1.1]
    | none =>
      rw [hcl] at h1
      simp only [Option.some.injEq] at h1
      have := runFunc_pending_cache ctx cache
        (makePendingFunction t r r.tlRow r.tlCol (initAccum t)) f cache1
        (by rw [h1])
      rw [this]
      exact cacheLookup_write _ _ _
  simp only [rangeRead, ha, hkey]

/-- C1 witness: over the grid `[1, 2, pending]` a first lowercase `sum`
request suspends and stores the fiber; a second lowercase `sum` request
(even against the fully resolved grid) returns that same fiber with the
cache unchanged. -/
theorem fold_in_flight_lowercase_reuse_witness :
    rangeRead 0 ctxR cacheB exRange "sum" = some (.pending (.func fibB), cacheB) :=
  fold_in_flight_lowercase_reuse 1 0 ctxB ctxR [] cacheB exRange .sum fibB (by decide)

/-- C1 counterexample: a first request for the sum of the 3×1 range (grid
`[1, pending, 3]`) suspends with fiber `fibA` stored under "sum;0;0;3;1";
a second request for the same aggregation over the same geometry via the
alias property "SUM" (grid now `[1, 2, pending]`, the first fold still
Pending in the cache) does not reuse `fibA`: it creates and returns the
distinct fresh fiber `fibB`, having restarted the scan from the first
cell. -/
theorem fold_in_flight_uppercase_restart :
    rangeRead 1 ctxA [] exRange "sum" = some (.pending (.func fibA), cacheA) ∧
    cacheLookup cacheA (makeCacheKey exRange "sum") = some (.pending (.func fibA)) ∧
    rangeRead 1 ctxB cacheA exRange "SUM" =
      some (.pending (.func fibB), cacheWrite cacheA "sum;0;0;3;1" (.pending (.func fibB))) ∧
    fibB ≠ fibA := by
  decide

/-- C3 (corrected): exactly the lowercase operation names and their
all-uppercase aliases dispatch to the aggregation — such a read consults
the cache under the message's key and otherwise runs the aggregation fresh
from the top-left cell.  (Mixed casings such as "Sum" are not in the
`aggregations` record and fall through to anchor-cell delegation — see the
counterexample.) -/
theorem aggregation_name_dispatch (t : FunctionTask) (fuel : Nat) (ctx : RangeContext)
    (cache : Cache) (r : Range) :
    (rangeRead fuel ctx cache r (taskName t) =
      some (match cacheLookup cache (makeCacheKey r (taskName t)) with
        | some value => (value, cache)
        | none =>
          runFunc ctx cache (makePendingFunction t r r.tlRow r.tlCol (initAccum t)))) ∧
    (rangeRead fuel ctx cache r (upperName t) =
      some (match cacheLookup cache (makeCacheKey r (upperName t)) with
        | some value => (value, cache)
        | none =>
          runFunc ctx cache (makePendingFunction t r r.tlRow r.tlCol (initAccum t)))) := by
  have ha : aggrTask (taskName t) = some t := by cases t <;> rfl
  have hb : aggrTask (upperName t) = some t := by cases t <;> rfl
  constructor
  · cases hcl : cacheLookup cache (makeCacheKey r (taskName t)) <;>
      simp only [rangeRead, ha, hcl]
  · cases hcl : cacheLookup cache (makeCacheKey r (upperName t)) <;>
      simp only [rangeRead, hb, hcl]

/-- C3 counterexample: "Sum" equals the operation name "sum" up to letter
case, but reading it does not invoke (or retrieve) the sum aggregation: it
falls to the default branch and yields the unknown-field error, while
"sum" computes 6 over the resolved grid `[1, 2, 3]`. -/
theorem aggregation_mixed_case_not_dispatched :
    aggrTask "Sum" = none ∧
    rangeRead 1 ctxR [] exRange "Sum" = some (.val (.err .unknownField), []) ∧
    rangeRead 1 ctxR [] exRange "sum" =
      some (.val (.num 6), [("sum;0;0;3;1", .val (.num 6))]) := by
  decide

/-- C4 (corrected): once the cache holds a final Value under the
operation+range key, every later read using the lowercase operation name on
a range of that geometry returns exactly that cached value and leaves the
cache unchanged — the runner is not re-invoked, so the key cannot
transition away from its final value through such reads.  (Reads via the
upper-case alias bypass the cache and re-run the fold — see the
counterexample.) -/
theorem final_value_read_stable (fuel : Nat) (ctx : RangeContext) (cache : Cache)
    (r : Range) (t : FunctionTask) (v : CalcValue)
    (h : cacheLookup cache (makeCacheKey r (taskName t)) = some (.val v)) :
    rangeRead fuel ctx cache r (taskName t) = some (.val v, cache) := by
  have ha : aggrTask (taskName t) = some t := by cases t <;> rfl
  simp only [rangeRead, ha, h]

/-- C4 witness: with the finished sum 6 cached for the 3×1 range, a
lowercase `sum` read returns 6 and leaves the cache untouched even though
the grid has meanwhile become `[1, 2, pending]`. -/
theorem final_value_read_stable_witness :
    rangeRead 0 ctxB cacheF exRange "sum" = some (.val (.num 6), cacheF) :=
  final_value_read_stable 0 ctxB cacheF exRange .sum (.num 6) (by decide)

/-- C4 counterexample: with the final value 6 cached under "sum;0;0;3;1", a
read of the aggregation property "SUM" on the same geometry misses the
cache (alias key), re-invokes the runner, and overwrites the key with a
Pending entry — the key transitions from a final Value to Pending,
which the claim rules out. -/
theorem final_value_uppercase_clobbered :
    cacheLookup cacheF (makeCacheKey exRange "sum") = some (.val (.num 6)) ∧
    rangeRead 1 ctxB cacheF exRange "SUM" =
      some (.pending (.func fibB), cacheWrite cacheF "sum;0;0;3;1" (.pending (.func fibB))) ∧
    cacheLookup (cacheWrite cacheF "sum;0;0;3;1" (.pending (.func fibB))) "sum;0;0;3;1" =
      some (.pending (.func fibB)) := by
  decide

/-- C7 (confirmed): reading "row"/"ROW" returns the 1-based anchor row
`tlRow + 1`, reading "column"/"COLUMN" returns `tlCol + 1`, and the
Reference capability's dereference is exactly one `context.read` of the
anchor cell — it is not applied recursively to the result. -/
theorem row_column_and_dereference (fuel : Nat) (ctx : RangeContext) (cache : Cache)
    (r : Range) :
    rangeRead fuel ctx cache r "row" = some (.val (.num (r.tlRow + 1)), cache) ∧
    rangeRead fuel ctx cache r "ROW" = some (.val (.num (r.tlRow + 1)), cache) ∧
    rangeRead fuel ctx cache r "column" = some (.val (.num (r.tlCol + 1)), cache) ∧
    rangeRead fuel ctx cache r "COLUMN" = some (.val (.num (r.tlCol + 1)), cache) ∧
    rangeDereference ctx r = ctx.read r.tlRow r.tlCol := by
  have h1 : aggrTask "row" = none := rfl
  have h2 : aggrTask "ROW" = none := rfl
  have h3 : aggrTask "column" = none := rfl
  have h4 : aggrTask "COLUMN" = none := rfl
  refine ⟨?_, ?_, ?_, ?_, rfl⟩ <;> simp [rangeRead, h1, h2, h3, h4]

/-!
Helper lemmas about individual runners folded over cell lists.
-/

theorem foldCells_average_no_num (ctx : RangeContext) :
    ∀ (cs : List (Int × Int)) (tot cnt : Int),
      (∀ c ∈ cs, ∃ v, ctx.read c.1 c.2 = .val v ∧ ∀ q, v ≠ CalcValue.num q) →
      foldCells ctx .average cs (.pair tot cnt) = (.pair tot cnt, none)
  | [], _, _, _ => rfl
  | c :: cs, tot, cnt, h => by
    obtain ⟨v, hv, hnum⟩ := h c (List.mem_cons_self c cs)
    have hstep : runnerStep .average (.pair tot cnt) v = .pair tot cnt := by
      cases v with
      | num q => exact absurd rfl (hnum q)
      | bool b => rfl
      | str s => rfl
      | range r => rfl
      | err e => rfl
      | fn tag => rfl
    simp only [foldCells, hv, hstep]
    exact foldCells_average_no_num ctx cs tot cnt
      (fun c' hc' => h c' (List.mem_cons_of_mem _ hc'))

theorem runnerStep_max (o : Option Int) (q : Int) :
    runnerStep .max (.onum o) (.num q) =
      .onum (match o with | none => some q | some m => if q > m then some q else some m) := by
  cases o with
  | none => rfl
  | some m => by_cases h : q > m <;> simp [runnerStep, h]

theorem runnerStep_min (o : Option Int) (q : Int) :
    runnerStep .min (.onum o) (.num q) =
      .onum (match o with | none => some q | some m => if q < m then some q else some m) := by
  cases o with
  | none => rfl
  | some m => by_cases h : q < m <;> simp [runnerStep, h]

theorem foldCells_max_eq (ctx : RangeContext) :
    ∀ (cs : List (Int × Int)) (o : Option Int),
      (∀ c ∈ cs, ∃ v, ctx.read c.1 c.2 = .val v) →
      foldCells ctx .max cs (.onum o) = (.onum (maxAcc o (numsOf ctx cs)), none)
  | [], _, _ => rfl
  | c :: cs, o, h => by
    obtain ⟨v, hv⟩ := h c (List.mem_cons_self c cs)
    have hrest := fun c' hc' => h c' (List.mem_cons_of_mem c hc')
    cases v with
    | num q =>
      simp only [foldCells, hv, runnerStep_max, numsOf, List.filterMap_cons]
      rw [foldCells_max_eq ctx cs _ hrest]
      rfl
    | bool b => simp only [foldCells, hv, runnerStep, numsOf, List.filterMap_cons]
                exact foldCells_max_eq ctx cs o hrest
    | str s => simp only [foldCells, hv, runnerStep, numsOf, List.filterMap_cons]
               exact foldCells_max_eq ctx cs o hrest
    | range r => simp only [foldCells, hv, runnerStep, numsOf, List.filterMap_cons]
                 exact foldCells_max_eq ctx cs o hrest
    | err e => simp only [foldCells, hv, runnerStep, numsOf, List.filterMap_cons]
               exact foldCells_max_eq ctx cs o hrest
    | fn tag => simp only [foldCells, hv, runnerStep, numsOf, List.filterMap_cons]
                exact foldCells_max_eq ctx cs o hrest

theorem foldCells_min_eq (ctx : RangeContext) :
    ∀ (cs : List (Int × Int)) (o : Option Int),
      (∀ c ∈ cs, ∃ v, ctx.read c.1 c.2 = .val v) →
      foldCells ctx .min cs (.onum o) = (.onum (minAcc o (numsOf ctx cs)), none)
  | [], _, _ => rfl
  | c :: cs, o, h => by
    obtain ⟨v, hv⟩ := h c (List.mem_cons_self c cs)
    have hrest := fun c' hc' => h c' (List.mem_cons_of_mem c hc')
    cases v with
    | num q =>
      simp only [foldCells, hv, runnerStep_min, numsOf, List.filterMap_cons]
      rw [foldCells_min_eq ctx cs _ hrest]
      rfl
    | bool b => simp only [foldCells, hv, runnerStep, numsOf, List.filterMap_cons]
                exact foldCells_min_eq ctx cs o hrest
    | str s => simp only [foldCells, hv, runnerStep, numsOf, List.filterMap_cons]
               exact foldCells_min_eq ctx cs o hrest
    | range r => simp only [foldCells, hv, runnerStep, numsOf, List.filterMap_cons]
                 exact foldCells_min_eq ctx cs o hrest
    | err e => simp only [foldCells, hv, runnerStep, numsOf, List.filterMap_cons]
               exact foldCells_min_eq ctx cs o hrest
    | fn tag => simp only [foldCells, hv, runnerStep, numsOf, List.filterMap_cons]
                exact foldCells_min_eq ctx cs o hrest

theorem maxAcc_some (l : List Int) : ∀ (m : Int),
    ∃ m2, maxAcc (some m) l = some m2 ∧ (m2 = m ∨ m2 ∈ l) ∧ m ≤ m2 ∧ ∀ x ∈ l, x ≤ m2 := by
  induction l with
  | nil => exact fun m => ⟨m, rfl, Or.inl rfl, le_refl m, by simp⟩
  | cons n l ih =>
    intro m
    obtain ⟨m2, h1, h2, h3, h4⟩ := ih (if n > m then n else m)
    refine ⟨m2, ?_, ?_, ?_, ?_⟩
    · rw [← h1]
      simp only [maxAcc, List.foldl_cons]
      congr 1
      split <;> rfl
    · rcases h2 with h2 | h2
      · subst h2
        split <;> simp
      · exact Or.inr (List.mem_cons_of_mem n h2)
    · split at h3 <;> omega
    · intro x hx
      rcases List.mem_cons.mp hx with rfl | hx
      · split at h3 <;> omega
      · exact h4 x hx

theorem minAcc_some (l : List Int) : ∀ (m : Int),
    ∃ m2, minAcc (some m) l = some m2 ∧ (m2 = m ∨ m2 ∈ l) ∧ m2 ≤ m ∧ ∀ x ∈ l, m2 ≤ x := by
  induction l with
  | nil => exact fun m => ⟨m, rfl, Or.inl rfl, le_refl m, by simp⟩
  | cons n l ih =>
    intro m
    obtain ⟨m2, h1, h2, h3, h4⟩ := ih (if n < m then n else m)
    refine ⟨m2, ?_, ?_, ?_, ?_⟩
    · rw [← h1]
      simp only [minAcc, List.foldl_cons]
      congr 1
      split <;> rfl
    · rcases h2 with h2 | h2
      · subst h2
        split <;> simp
      · exact Or.inr (List.mem_cons_of_mem n h2)
    · split at h3 <;> omega
    · intro x hx
      rcases List.mem_cons.mp hx with rfl | hx
      · split at h3 <;> omega
      · exact h4 x hx

/-- C5 (confirmed): over a range none of whose cells holds a number (and all
of whose cells are resolved), the average aggregation completes and returns
the division-by-zero error value: the accumulator stays at total 0, count 0,
and the finisher maps count 0 to the div0 error object. -/
theorem average_no_numbers_div0 (ctx : RangeContext) (cache : Cache) (r : Range)
    (h : ∀ c ∈ cellsFrom r r.tlRow r.tlCol,
      ∃ v, ctx.read c.1 c.2 = .val v ∧ ∀ q, v ≠ CalcValue.num q) :
    runFunc ctx cache (makePendingFunction .average r r.tlRow r.tlCol (initAccum .average)) =
      (.val (.err .div0), cacheWrite cache (makeCacheKey r "average") (.val (.err .div0))) := by
  rw [runFunc_eq_foldCells]
  dsimp only [makePendingFunction, initAccum]
  rw [foldCells_average_no_num ctx _ 0 0 h]
  rfl

/-- C5 witness: the average of a 2×2 range whose cells all read as the
string "x" is the div0 error value. -/
theorem average_no_numbers_div0_witness :
    runFunc ctxS [] (makePendingFunction .average range2 0 0 (initAccum .average)) =
      (.val (.err .div0), [("average;0;0;2;2", .val (.err .div0))]) :=
  average_no_numbers_div0 ctxS [] range2
    (fun c _ => ⟨.str "x", rfl, fun q hq => by cases hq⟩)

/-- Helper: the default branch of the own-keys read `rangeRead` — with no
record key and none of the four coordinate names, the read dereferences the
anchor cell: a Pending anchor is returned untouched (checked before any
delegation), a Readable anchor (a Range) receives exactly one level of
delegation, and every other anchor yields the unknown-field error. -/
theorem unmatched_property_delegation (fuel : Nat) (ctx : RangeContext) (cache : Cache)
    (r : Range) (msg : String) (h1 : aggrTask msg = none) (h2 : msg ≠ "row")
    (h3 : msg ≠ "ROW") (h4 : msg ≠ "column") (h5 : msg ≠ "COLUMN") :
    rangeRead (fuel + 1) ctx cache r msg =
      match ctx.read r.tlRow r.tlCol with
      | .pending p => some (.pending p, cache)
      | .val (.range r2) => rangeRead fuel ctx cache r2 msg
      | .val _ => some (.val (.err .unknownField), cache) := by
  conv_lhs => rw [rangeRead.eq_def]
  simp only [h1]
  rw [if_neg (by simp [h2, h3]), if_neg (by simp [h4, h5])]

/-- Example of the helper above: reading the unmatched property "total" on
the 3×1 range over the resolved grid `[1, 2, 3]` dereferences the numeric
anchor and returns the unknown-field error value. -/
theorem unmatched_property_delegation_witness :
    rangeRead 1 ctxR [] exRange "total" = some (.val (.err .unknownField), []) :=
  (unmatched_property_delegation 0 ctxR [] exRange "total" rfl (by decide) (by decide)
    (by decide) (by decide)).trans (by decide)

/-!
Helper lemmas: closed forms of the sum, product, count and concat runners
folded over a list of scanned values.
-/

theorem foldl_sum_eq (vs : List CalcValue) : ∀ (a : Int),
    List.foldl (runnerStep .sum) (.num a) vs = .num (a + (numVals vs).sum) := by
  induction vs with
  | nil => intro a; simp [numVals]
  | cons v vs ih =>
    intro a
    cases v <;>
      simp only [List.foldl_cons, runnerStep, numVals, List.filterMap_cons, ih,
        List.sum_cons, Accum.num.injEq] <;>
      try omega

theorem foldl_product_eq (vs : List CalcValue) : ∀ (a : Int),
    List.foldl (runnerStep .product) (.num a) vs = .num (a * (numVals vs).prod) := by
  induction vs with
  | nil => intro a; simp [numVals]
  | cons v vs ih =>
    intro a
    cases v <;>
      simp only [List.foldl_cons, runnerStep, numVals, List.filterMap_cons, ih,
        List.prod_cons, Accum.num.injEq] <;>
      try ring

theorem foldl_count_eq (vs : List CalcValue) : ∀ (a : Int),
    List.foldl (runnerStep .count) (.num a) vs =
      .num (a + ((numVals vs).length : Int)) := by
  induction vs with
  | nil => intro a; simp [numVals]
  | cons v vs ih =>
    intro a
    cases v <;>
      simp only [List.foldl_cons, runnerStep, numVals, List.filterMap_cons, ih,
        List.length_cons, Accum.num.injEq] <;>
      try push_cast <;>
      try omega

theorem foldl_concat_eq (vs : List CalcValue) : ∀ (s : String),
    List.foldl (runnerStep .concat) (.str s) vs =
      .str (List.foldl (fun a b => a ++ b) s (strVals vs)) := by
  induction vs with
  | nil => intro s; simp [strVals]
  | cons v vs ih =>
    intro s
    cases v <;>
      simp only [List.foldl_cons, runnerStep, strVals, List.filterMap_cons, ih]

/-- C8 (confirmed): each runner's step updates the accumulator only on
values of its expected primitive type and leaves it unchanged otherwise
(never failing): folding the sum runner over any value sequence yields the
sum of its numeric values, product the product, count the number of
numeric values, and concat the left-to-right append of its string
values. -/
theorem runner_type_skipping :
    (∀ (t : FunctionTask) (acc : Accum) (v : CalcValue),
      expectsVal t v = false → runnerStep t acc v = acc) ∧
    (∀ (vs : List CalcValue) (a : Int),
      List.foldl (runnerStep .sum) (.num a) vs = .num (a + (numVals vs).sum)) ∧
    (∀ (vs : List CalcValue) (a : Int),
      List.foldl (runnerStep .product) (.num a) vs = .num (a * (numVals vs).prod)) ∧
    (∀ (vs : List CalcValue) (a : Int),
      List.foldl (runnerStep .count) (.num a) vs =
        .num (a + ((numVals vs).length : Int))) ∧
    (∀ (vs : List CalcValue) (s : String),
      List.foldl (runnerStep .concat) (.str s) vs =
        .str (List.foldl (fun a b => a ++ b) s (strVals vs))) := by
  refine ⟨?_, foldl_sum_eq, foldl_product_eq, foldl_count_eq, foldl_concat_eq⟩
  intro t acc v h
  cases t <;> cases v <;> first | (cases acc <;> rfl) | simp_all [expectsVal]

/-- C8 witness: the sum step skips a string without failing, and the sum of
`[1, true, 2, "z"]` is 3. -/
theorem runner_type_skipping_witness :
    runnerStep .sum (.num 5) (.str "a") = .num 5 ∧
    List.foldl (runnerStep .sum) (.num 0) [.num 1, .bool true, .num 2, .str "z"] =
      .num 3 := by
  refine ⟨runner_type_skipping.1 .sum (.num 5) (.str "a") rfl, ?_⟩
  rw [runner_type_skipping.2.1]
  decide

/-- C9 (confirmed): over a fully-resolved range with no numeric cells the
max and min aggregations finish with the accumulator still in the "none
seen" state and the finisher maps it to 0, so both return 0; with at least
one numeric cell present, max returns a numeric cell value that bounds all
numeric cell values from above, and min one that bounds them from below. -/
theorem max_min_empty_and_present (ctx : RangeContext) (cache : Cache) (r : Range)
    (hread : ∀ c ∈ cellsFrom r r.tlRow r.tlCol, ∃ v, ctx.read c.1 c.2 = .val v) :
    (numsOf ctx (cellsFrom r r.tlRow r.tlCol) = [] →
      (runFunc ctx cache (makePendingFunction .max r r.tlRow r.tlCol (initAccum .max)) =
          (.val (.num 0), cacheWrite cache (makeCacheKey r "max") (.val (.num 0))) ∧
        runFunc ctx cache (makePendingFunction .min r r.tlRow r.tlCol (initAccum .min)) =
          (.val (.num 0), cacheWrite cache (makeCacheKey r "min") (.val (.num 0))))) ∧
    (∀ q, q ∈ numsOf ctx (cellsFrom r r.tlRow r.tlCol) →
      (∃ m, m ∈ numsOf ctx (cellsFrom r r.tlRow r.tlCol) ∧
        (∀ x ∈ numsOf ctx (cellsFrom r r.tlRow r.tlCol), x ≤ m) ∧
        runFunc ctx cache (makePendingFunction .max r r.tlRow r.tlCol (initAccum .max)) =
          (.val (.num m), cacheWrite cache (makeCacheKey r "max") (.val (.num m)))) ∧
      (∃ m, m ∈ numsOf ctx (cellsFrom r r.tlRow r.tlCol) ∧
        (∀ x ∈ numsOf ctx (cellsFrom r r.tlRow r.tlCol), m ≤ x) ∧
        runFunc ctx cache (makePendingFunction .min r r.tlRow r.tlCol (initAccum .min)) =
          (.val (.num m), cacheWrite cache (makeCacheKey r "min") (.val (.num m))))) := by
  have hmax := runFunc_eq_foldCells ctx cache
    (makePendingFunction .max r r.tlRow r.tlCol (initAccum .max))
  have hmin := runFunc_eq_foldCells ctx cache
    (makePendingFunction .min r r.tlRow r.tlCol (initAccum .min))
  dsimp only [makePendingFunction, initAccum, taskName] at hmax hmin
  rw [foldCells_max_eq ctx _ none hread] at hmax
  rw [foldCells_min_eq ctx _ none hread] at hmin
  constructor
  · intro h0
    rw [h0] at hmax hmin
    exact ⟨hmax, hmin⟩
  · intro q hq
    cases hn : numsOf ctx (cellsFrom r r.tlRow r.tlCol) with
    | nil => rw [hn] at hq; exact absurd hq (List.not_mem_nil q)
    | cons n rest =>
      rw [hn] at hmax hmin
      have hstep1 : maxAcc none (n :: rest) = maxAcc (some n) rest := rfl
      have hstep2 : minAcc none (n :: rest) = minAcc (some n) rest := rfl
      obtain ⟨m2, e1, e2, e3, e4⟩ := maxAcc_some rest n
      obtain ⟨w2, f1, f2, f3, f4⟩ := minAcc_some rest n
      rw [hstep1, e1] at hmax
      rw [hstep2, f1] at hmin
      dsimp only [runnerFinish, fromUndefined] at hmax hmin
      constructor
      · refine ⟨m2, ?_, ?_, hmax⟩
        · rcases e2 with rfl | h
          · exact List.mem_cons_self _ _
          · exact List.mem_cons_of_mem n h
        · intro x hx
          rcases List.mem_cons.mp hx with rfl | hx
          · exact e3
          · exact e4 x hx
      · refine ⟨w2, ?_, ?_, hmin⟩
        · rcases f2 with rfl | h
          · exact List.mem_cons_self _ _
          · exact List.mem_cons_of_mem n h
        · intro x hx
          rcases List.mem_cons.mp hx with rfl | hx
          · exact f3
          · exact f4 x hx

/-- C9 witness: over a 2×2 range of strings only, the max and min
aggregations both return 0. -/
theorem max_min_empty_and_present_witness :
    runFunc ctxS [] (makePendingFunction .max range2 0 0 (initAccum .max)) =
      (.val (.num 0), [("max;0;0;2;2", .val (.num 0))]) ∧
    runFunc ctxS [] (makePendingFunction .min range2 0 0 (initAccum .min)) =
      (.val (.num 0), [("min;0;0;2;2", .val (.num 0))]) :=
  (max_min_empty_and_present ctxS [] range2 (fun c _ => ⟨.str "x", rfl⟩)).1 (by decide)

/-- C10 (confirmed): with both second-corner coordinates present,
`fromReference` builds the Range with anchor at the coordinatewise minimum
of the two corners and dimensions `|row1 − row2| + 1` by `|col1 − col2| + 1`
(both at least 1, corners in either order); when `row2` or `col2` is absent
the result is the 1×1 Range at `(row1, col1)`, even if the other
second-corner coordinate is present. -/
theorem fromReference_normalizes (row1 col1 a b : Int) :
    (fromReference ⟨row1, col1, some a, some b⟩ =
      { tlRow := min row1 a, tlCol := min col1 b,
        height := |row1 - a| + 1, width := |col1 - b| + 1 }) ∧
    (1 ≤ (fromReference ⟨row1, col1, some a, some b⟩).height ∧
      1 ≤ (fromReference ⟨row1, col1, some a, some b⟩).width) ∧
    (∀ oc, fromReference ⟨row1, col1, none, oc⟩ =
      { tlRow := row1, tlCol := col1, height := 1, width := 1 }) ∧
    (∀ orr, fromReference ⟨row1, col1, orr, none⟩ =
      { tlRow := row1, tlCol := col1, height := 1, width := 1 }) := by
  refine ⟨?_, ⟨?_, ?_⟩, ?_, ?_⟩
  · simp only [fromReference, Range.mk.injEq, and_true, true_and]
    constructor <;> (split <;> omega)
  · have h := abs_nonneg (row1 - a)
    simp only [fromReference]
    omega
  · have h := abs_nonneg (col1 - b)
    simp only [fromReference]
    omega
  · intro oc
    rfl
  · intro orr
    cases orr <;> rfl

/-!
The own-keys read `rangeRead` and the full-lookup read `rangeReadJS` agree
on every property name not inherited from `Object.prototype`.
-/

theorem rangeReadJS_agrees : ∀ (fuel : Nat) (ctx : RangeContext) (cache : Cache)
    (r : Range) (msg : String), objectProtoMember msg = false →
    rangeReadJS fuel ctx cache r msg =
      match rangeRead fuel ctx cache r msg with
      | some (out, c) => JsOutcome.ret out c
      | none => JsOutcome.fuelOut
  | 0, ctx, cache, r, msg, h => by
    conv_lhs => rw [rangeReadJS.eq_def]
    conv_rhs => rw [rangeRead.eq_def]
    cases hA : aggrTask msg with
    | some t =>
      cases hcl : cacheLookup cache (makeCacheKey r msg) <;> simp [hA, h, hcl]
    | none =>
      by_cases hrow : msg = "row" ∨ msg = "ROW"
      · simp [hA, h, hrow]
      · by_cases hcol : msg = "column" ∨ msg = "COLUMN"
        · simp [hA, h, hrow, hcol]
        · cases hv : ctx.read r.tlRow r.tlCol with
          | pending p => simp [hA, h, hrow, hcol, hv]
          | val v => cases v <;> simp [hA, h, hrow, hcol, hv]
  | (n + 1), ctx, cache, r, msg, h => by
    conv_lhs => rw [rangeReadJS.eq_def]
    conv_rhs => rw [rangeRead.eq_def]
    cases hA : aggrTask msg with
    | some t =>
      cases hcl : cacheLookup cache (makeCacheKey r msg) <;> simp [hA, h, hcl]
    | none =>
      by_cases hrow : msg = "row" ∨ msg = "ROW"
      · simp [hA, h, hrow]
      · by_cases hcol : msg = "column" ∨ msg = "COLUMN"
        · simp [hA, h, hrow, hcol]
        · cases hv : ctx.read r.tlRow r.tlCol with
          | pending p => simp [hA, h, hrow, hcol, hv]
          | val v =>
            cases v <;> try simp [hA, h, hrow, hcol, hv]
            exact rangeReadJS_agrees n ctx cache _ msg h

/-- C6 (corrected): for a property name that is not an aggregation key, not
row/ROW/column/COLUMN, and not a member name inherited from
`Object.prototype`, the read dereferences the anchor cell — a Pending
anchor is returned untouched (checked before any Readable delegation), a
Readable anchor (a Range) receives exactly one level of delegation, and
every other anchor (primitives, functions, error objects) yields the
unknown-field error value.  For a name inherited from `Object.prototype`
the aggregation guard is satisfied, so after a cache miss the read invokes
the inherited member in place of an aggregation and never dereferences the
anchor. -/
theorem unmatched_nonproto_delegation :
    (∀ (fuel : Nat) (ctx : RangeContext) (cache : Cache) (r : Range) (msg : String),
      objectProtoMember msg = false → aggrTask msg = none → msg ≠ "row" →
      msg ≠ "ROW" → msg ≠ "column" → msg ≠ "COLUMN" →
      rangeReadJS (fuel + 1) ctx cache r msg =
        match ctx.read r.tlRow r.tlCol with
        | .pending p => .ret (.pending p) cache
        | .val (.range r2) => rangeReadJS fuel ctx cache r2 msg
        | .val _ => .ret (.val (.err .unknownField)) cache) ∧
    (∀ (fuel : Nat) (ctx : RangeContext) (cache : Cache) (r : Range) (msg : String),
      objectProtoMember msg = true → aggrTask msg = none →
      cacheLookup cache (makeCacheKey r msg) = none →
      rangeReadJS fuel ctx cache r msg = protoCall msg r cache) := by
  constructor
  · intro fuel ctx cache r msg h0 h1 h2 h3 h4 h5
    rw [rangeReadJS_agrees (fuel + 1) ctx cache r msg h0,
      unmatched_property_delegation fuel ctx cache r msg h1 h2 h3 h4 h5]
    cases hv : ctx.read r.tlRow r.tlCol with
    | pending p => rfl
    | val v =>
      cases v <;> try rfl
      exact (rangeReadJS_agrees fuel ctx cache _ msg h0).symm
  · intro fuel ctx cache r msg hp ha hcl
    conv_lhs => rw [rangeReadJS.eq_def]
    simp [hp, ha, hcl]

/-- C6 counterexample: "toString" is neither an aggregation key nor a
coordinate name, and the anchor of the 3×1 range holds the number 1 — the
claim then demands the unknown-field error — yet the read takes the
aggregation branch through the inherited `Object.prototype.toString` and
returns the string "[object Undefined]"; "hasOwnProperty" likewise takes
that branch and throws a TypeError.  Neither read dereferences the anchor
or returns the unknown-field error. -/
theorem unmatched_property_prototype_hit :
    aggrTask "toString" = none ∧
    ("toString" ≠ "row" ∧ "toString" ≠ "ROW" ∧
      "toString" ≠ "column" ∧ "toString" ≠ "COLUMN") ∧
    rangeReadJS 1 ctxR [] exRange "toString" =
      .ret (.val (.str "[object Undefined]")) [] ∧
    rangeReadJS 1 ctxR [] exRange "hasOwnProperty" = .typeError ∧
    JsOutcome.ret (.val (.str "[object Undefined]")) ([] : Cache) ≠
      JsOutcome.ret (.val (.err .unknownField)) ([] : Cache) := by
  decide

/-- C6 witness: the non-inherited unmatched name "total" dereferences the
numeric anchor and yields the unknown-field error, while the inherited
name "toString" is answered by the inherited member instead. -/
theorem unmatched_nonproto_delegation_witness :
    rangeReadJS 1 ctxR [] exRange "total" = .ret (.val (.err .unknownField)) [] ∧
    rangeReadJS 1 ctxR [] exRange "toString" =
      .ret (.val (.str "[object Undefined]")) [] := by
  constructor
  · exact (unmatched_nonproto_delegation.1 0 ctxR [] exRange "total" rfl rfl (by decide)
      (by decide) (by decide) (by decide)).trans (by decide)
  · exact (unmatched_nonproto_delegation.2 1 ctxR [] exRange "toString" rfl rfl rfl).trans
      (by decide)
